import Mathlib

/-!
Shallow embedding of the LTO coordination layer of the COFF linker
(`lld/COFF/LTO.cpp`): symbol-resolution assignment in
`BitcodeCompiler::add`, configuration construction in `createLTO`, and
output aggregation in `BitcodeCompiler::compile`.
-/

namespace LtoCoff

/-- Bytes of a native object buffer (an `OutputBuffer` byte range). -/
abbrev Buffer := List Nat

/-- Kind tag of a linker-wide symbol-table entry.  `undefinedKind` is the
kind of the `Undefined` placeholder installed by `undefine`. -/
inductive SymbolKind where
  | definedKind
  | undefinedKind
  deriving DecidableEq

/-- A linker-wide symbol-table entry (`lld::coff::Symbol`): its name, its
kind, the identity of the input file the table currently associates with it
(`Symbol::getFile()`, `none` when the entry is not associated with any
file, as for an `Undefined`), and the precomputed
`isUsedInRegularObj` flag. -/
structure Symbol where
  name : String
  kind : SymbolKind
  file : Option Nat
  isUsedInRegularObj : Bool
  deriving DecidableEq

/-- The linker-wide symbol table: every name has an entry (in the source,
each `ModuleSymbol` carries a back-reference `Symbol *` into the table). -/
abbrev SymTab := String → Symbol

/-- Pointwise update of the symbol table at one name (the in-place
`replaceSymbol` mutation seen through the table). -/
def updateTab (st : SymTab) (n : String) (s : Symbol) : SymTab :=
  fun m => if m = n then s else st m

/-- Embedding of `undefine` (LTO.cpp line 81):
`replaceSymbol<Undefined>(s, s->getName())` rewrites the entry in place to
an `Undefined` with the same name.  Modelled from the spec for the fields
the replacement carries: the placeholder keeps the name, has undefined
kind, and is no longer associated with any input file
(`Undefined::getFile()` yields null); the precomputed
used-in-regular-object flag is per-symbol caller state and is kept. -/
def undefine (s : Symbol) : Symbol :=
  { name := s.name, kind := .undefinedKind, file := none,
    isUsedInRegularObj := s.isUsedInRegularObj }

/-- One symbol occurrence reported by a bitcode module
(`lto::InputFile::Symbol`): its name and whether the occurrence is
undefined (`isUndefined()`); a non-undefined occurrence is a defined one. -/
structure ObjSymbol where
  name : String
  isUndefined : Bool
  deriving DecidableEq

/-- A registered bitcode module (`BitcodeFile`): its identity (the `&f`
pointer compared by `sym->getFile() == &f`) and its symbol occurrences in
file order. -/
structure BitcodeFile where
  id : Nat
  syms : List ObjSymbol
  deriving DecidableEq

/-- The resolution verdict handed to the LTO API for one occurrence
(`lto::SymbolResolution`, the two fields `add` assigns). -/
structure SymbolResolution where
  prevailing : Bool
  visibleToRegularObj : Bool
  deriving DecidableEq

/-- One occurrence together with the module it came from and the
resolution `add` assigned to it. -/
structure ResolvedSym where
  fileId : Nat
  occ : ObjSymbol
  res : SymbolResolution
  deriving DecidableEq

/-- The `Prevailing` verdict for one occurrence (LTO.cpp line 100):
`!objSym.isUndefined() && sym->getFile() == &f`. -/
def prevailingFor (fid : Nat) (st : SymTab) (occ : ObjSymbol) : Bool :=
  !occ.isUndefined && decide ((st occ.name).file = some fid)

/-- The symbol-table effect of processing one occurrence (LTO.cpp lines
102-103): when the occurrence prevails, its table entry is undefined. -/
def addStep (fid : Nat) (st : SymTab) (occ : ObjSymbol) : SymTab :=
  if prevailingFor fid st occ then updateTab st occ.name (undefine (st occ.name))
  else st

/-- The resolution loop of `BitcodeCompiler::add` (LTO.cpp lines 90-104):
for each occurrence in order, read the table entry, record
`{Prevailing, VisibleToRegularObj}`, and undefine the entry when the
occurrence prevails.  Returns the assigned resolutions in occurrence order
and the updated table. -/
def addLoop (fid : Nat) : List ObjSymbol → SymTab → List ResolvedSym × SymTab
  | [], st => ([], st)
  | occ :: rest, st =>
    (⟨fid, occ,
        ⟨prevailingFor fid st occ, (st occ.name).isUsedInRegularObj⟩⟩ ::
        (addLoop fid rest (addStep fid st occ)).1,
      (addLoop fid rest (addStep fid st occ)).2)

/-- Embedding of `BitcodeCompiler::add` for one module. -/
def add (f : BitcodeFile) (st : SymTab) : List ResolvedSym × SymTab :=
  addLoop f.id f.syms st

/-- A sequence of `add` calls, one per registered module, in registration
order; returns all assigned resolutions and the final symbol table. -/
def runAdds : List BitcodeFile → SymTab → List ResolvedSym × SymTab
  | [], st => ([], st)
  | f :: fs, st =>
    ((add f st).1 ++ (runAdds fs (add f st).2).1, (runAdds fs (add f st).2).2)

/-- COFF target machine identity (`config->machine`). -/
inductive MachineType where
  | amd64
  | arm64
  | armnt
  | i386
  deriving DecidableEq

/-- Relocation model (`llvm::Reloc::Model` values used here). -/
inductive RelocModel where
  | staticModel
  | picModel
  deriving DecidableEq

/-- The ThinLTO backend choice (LTO.cpp lines 70-72): when
`config->thinLTOJobs != 0`, an in-process backend with that many jobs,
otherwise the default backend. -/
inductive ThinBackendKind where
  | defaultBackend
  | inProcess (jobs : Nat)
  deriving DecidableEq

/-- The linker configuration fields `LTO.cpp` reads from `config`. -/
structure COFFConfig where
  machine : MachineType
  ltoo : Nat
  saveTemps : Bool
  outputFile : String
  thinLTOJobs : Nat
  ltoPartitions : Nat
  ltoCache : String
  ltoCachePolicy : String
  deriving DecidableEq

/-- The fields of `lto::Config` (plus backend and partition count) that
`createLTO` sets. -/
structure LTOConfig where
  functionSections : Bool
  dataSections : Bool
  relocModel : RelocModel
  disableVerify : Bool
  optLevel : Nat
  saveTempsPath : Option String
  thinBackend : ThinBackendKind
  partitions : Nat
  deriving DecidableEq

/-- Embedding of `createLTO` (LTO.cpp lines 44-75): section flags always
on; static relocation model on 32-bit x86 (`IMAGE_FILE_MACHINE_I386`) and
PIC otherwise; verification disabled; optimization level from
`config->ltoo`; save-temps path `outputFile ++ "."` when
`config->saveTemps`; in-process ThinLTO backend when
`config->thinLTOJobs != 0`. -/
def createLTO (cfg : COFFConfig) : LTOConfig :=
  { functionSections := true
    dataSections := true
    relocModel :=
      if cfg.machine = .i386 then .staticModel else .picModel
    disableVerify := true
    optLevel := cfg.ltoo
    saveTempsPath := if cfg.saveTemps then some (cfg.outputFile ++ ".") else none
    thinBackend :=
      if cfg.thinLTOJobs ≠ 0 then .inProcess cfg.thinLTOJobs else .defaultBackend
    partitions := cfg.ltoPartitions }

/-- Observable steps of one `BitcodeCompiler::compile` invocation, in
program order: installing the local cache (LTO.cpp lines 118-123), the
backend run `ltoObj->run` (lines 125-130, during which all cache writes of
the invocation happen inside the cache callback), and the cache eviction
pass `pruneCache` (lines 132-133). -/
inductive Event where
  | setupCache
  | backendRun
  | pruneCache
  deriving DecidableEq

/-- The diagnostic file path used by the save-temps branch (LTO.cpp lines
140-143): unit 0 uses `outputFile ++ ".lto.obj"`, unit `i > 0` uses
`outputFile ++ toString i ++ ".lto.obj"`. -/
def tempPath (outputFile : String) (i : Nat) : String :=
  if i = 0 then outputFile ++ ".lto.obj"
  else outputFile ++ toString i ++ ".lto.obj"

/-- The aggregation loop of `compile` (LTO.cpp lines 135-146) over the
per-task buffers `buf`, starting at task index `i`: empty buffers are
skipped; a non-empty buffer is first saved to its diagnostic path when
`config->saveTemps`, then appended to the result.  Returns the aggregated
fresh outputs and the log of save-temps writes, both in task order. -/
def aggregateLoop (cfg : COFFConfig) : Nat → List Buffer →
    List Buffer × List (String × Buffer)
  | _, [] => ([], [])
  | i, b :: rest =>
    if b.isEmpty then aggregateLoop cfg (i + 1) rest
    else
      (b :: (aggregateLoop cfg (i + 1) rest).1,
        (if cfg.saveTemps then [(tempPath cfg.outputFile i, b)] else []) ++
          (aggregateLoop cfg (i + 1) rest).2)

/-- The second aggregation pass (LTO.cpp lines 148-150): the buffers the
cache materialized, taken in the order of their task slots, skipping slots
the cache did not fill. -/
def cacheOutputs : List (Option Buffer) → List Buffer
  | [] => []
  | none :: rest => cacheOutputs rest
  | some b :: rest => b :: cacheOutputs rest

/-- Result of one `compile` invocation: the returned blobs, the log of
save-temps writes, and the trace of observable steps. -/
structure CompileResult where
  ret : List Buffer
  saved : List (String × Buffer)
  events : List Event
  deriving DecidableEq

/-- Embedding of `BitcodeCompiler::compile` (LTO.cpp lines 110-153).  The
backend is opaque: `bufs` are the per-task buffers it filled (one slot per
task, `buf.resize(maxTasks)`), `files` the per-task slots the local cache
callback filled.  The cache is installed and later pruned only when
`config->ltoCache` is non-empty; the returned blobs are the non-empty
fresh buffers in ascending task order followed by the cache buffers in
task-slot order. -/
def compile (cfg : COFFConfig) (bufs : List Buffer)
    (files : List (Option Buffer)) : CompileResult :=
  { ret := (aggregateLoop cfg 0 bufs).1 ++ cacheOutputs files
    saved := (aggregateLoop cfg 0 bufs).2
    events :=
      (if cfg.ltoCache = "" then [] else [Event.setupCache]) ++
        [Event.backendRun] ++
        (if cfg.ltoCache = "" then [] else [Event.pruneCache]) }

/-- Membership predicate used to count prevailing occurrences of a name. -/
def prevAt (n : String) (r : ResolvedSym) : Bool :=
  decide (r.occ.name = n) && r.res.prevailing

/-- Sample symbol table for concrete evaluations: every name is a defined
entry associated with file 1 and used in a regular object. -/
def sampleTab : SymTab :=
  fun m => ⟨m, .definedKind, some 1, true⟩

/-- Sample configuration: amd64, no save-temps, no cache. -/
def sampleCfg : COFFConfig :=
  ⟨.amd64, 2, false, "out", 0, 1, "", ""⟩

/-- Sample configuration with save-temps on and a cache directory set. -/
def sampleCfgSave : COFFConfig :=
  ⟨.amd64, 2, true, "out", 0, 1, "cache", "policy"⟩

/-- Sample configuration targeting 32-bit x86. -/
def sampleCfgI386 : COFFConfig :=
  ⟨.i386, 2, false, "out", 0, 1, "", ""⟩

theorem undefine_file (s : Symbol) : (undefine s).file = none := rfl

theorem undefine_name (s : Symbol) : (undefine s).name = s.name := rfl

theorem undefine_kind (s : Symbol) : (undefine s).kind = .undefinedKind := rfl

theorem undefine_used (s : Symbol) :
    (undefine s).isUsedInRegularObj = s.isUsedInRegularObj := rfl

theorem updateTab_same (st : SymTab) (n : String) (s : Symbol) :
    updateTab st n s n = s := by
  simp [updateTab]

theorem updateTab_other (st : SymTab) (n m : String) (s : Symbol)
    (h : m ≠ n) : updateTab st n s m = st m := by
  simp [updateTab, h]

theorem prevailingFor_file_ne (fid : Nat) (st : SymTab) (occ : ObjSymbol)
    (h : (st occ.name).file ≠ some fid) : prevailingFor fid st occ = false := by
  simp [prevailingFor, h]

theorem addStep_used (fid : Nat) (st : SymTab) (occ : ObjSymbol) (m : String) :
    (addStep fid st occ m).isUsedInRegularObj = (st m).isUsedInRegularObj := by
  unfold addStep
  split
  · by_cases h : m = occ.name
    · subst h
      rw [updateTab_same, undefine_used]
    · rw [updateTab_other _ _ _ _ h]
  · rfl

theorem addStep_frame (fid : Nat) (st : SymTab) (occ : ObjSymbol) (m : String)
    (h : m ≠ occ.name) : addStep fid st occ m = st m := by
  unfold addStep
  split
  · exact updateTab_other _ _ _ _ h
  · rfl

theorem addStep_at_of_file_ne (fid : Nat) (st : SymTab) (occ : ObjSymbol)
    (n : String) (h : (st n).file ≠ some fid) : addStep fid st occ n = st n := by
  by_cases hn : occ.name = n
  · have hp : prevailingFor fid st occ = false :=
      prevailingFor_file_ne fid st occ (by rw [hn]; exact h)
    simp [addStep, hp]
  · exact addStep_frame fid st occ n (Ne.symm hn)

theorem addStep_at (fid : Nat) (st : SymTab) (occ : ObjSymbol) (n : String) :
    addStep fid st occ n = st n ∨ addStep fid st occ n = undefine (st n) := by
  unfold addStep
  split
  · by_cases hn : n = occ.name
    · subst hn
      right
      rw [updateTab_same]
    · left
      exact updateTab_other _ _ _ _ hn
  · left
    rfl

theorem addLoop_snd_used (fid : Nat) (occs : List ObjSymbol) (st : SymTab)
    (m : String) :
    ((addLoop fid occs st).2 m).isUsedInRegularObj =
      (st m).isUsedInRegularObj := by
  induction occs generalizing st with
  | nil => rfl
  | cons occ rest ih =>
    simp only [addLoop]
    rw [ih, addStep_used]

theorem addLoop_visible (fid : Nat) (occs : List ObjSymbol) (st : SymTab) :
    ∀ r ∈ (addLoop fid occs st).1,
      r.res.visibleToRegularObj = (st r.occ.name).isUsedInRegularObj := by
  induction occs generalizing st with
  | nil =>
    intro r hr
    simp [addLoop] at hr
  | cons occ rest ih =>
    intro r hr
    simp only [addLoop, List.mem_cons] at hr
    rcases hr with rfl | hr
    · rfl
    · rw [ih _ r hr, addStep_used]

theorem addLoop_prevailing_defined (fid : Nat) (occs : List ObjSymbol)
    (st : SymTab) :
    ∀ r ∈ (addLoop fid occs st).1,
      r.res.prevailing = true → r.occ.isUndefined = false := by
  induction occs generalizing st with
  | nil =>
    intro r hr
    simp [addLoop] at hr
  | cons occ rest ih =>
    intro r hr hp
    simp only [addLoop, List.mem_cons] at hr
    rcases hr with rfl | hr
    · simp only [prevailingFor, Bool.and_eq_true, Bool.not_eq_true'] at hp
      exact hp.1
    · exact ih _ r hr hp

theorem runAdds_snd_used (fs : List BitcodeFile) (st : SymTab) (m : String) :
    ((runAdds fs st).2 m).isUsedInRegularObj = (st m).isUsedInRegularObj := by
  induction fs generalizing st with
  | nil => rfl
  | cons f fs ih =>
    simp only [runAdds]
    rw [ih, add, addLoop_snd_used]

theorem runAdds_visible (fs : List BitcodeFile) (st : SymTab) :
    ∀ r ∈ (runAdds fs st).1,
      r.res.visibleToRegularObj = (st r.occ.name).isUsedInRegularObj := by
  induction fs generalizing st with
  | nil =>
    intro r hr
    simp [runAdds] at hr
  | cons f fs ih =>
    intro r hr
    simp only [runAdds, List.mem_append] at hr
    rcases hr with hr | hr
    · exact addLoop_visible f.id f.syms st r hr
    · rw [ih _ r hr, add, addLoop_snd_used]

theorem runAdds_prevailing_defined (fs : List BitcodeFile) (st : SymTab) :
    ∀ r ∈ (runAdds fs st).1,
      r.res.prevailing = true → r.occ.isUndefined = false := by
  induction fs generalizing st with
  | nil =>
    intro r hr
    simp [runAdds] at hr
  | cons f fs ih =>
    intro r hr hp
    simp only [runAdds, List.mem_append] at hr
    rcases hr with hr | hr
    · exact addLoop_prevailing_defined f.id f.syms st r hr hp
    · exact ih _ r hr hp

theorem addLoop_file_none (fid : Nat) (occs : List ObjSymbol) (st : SymTab)
    (n : String) (h : (st n).file = none) : (addLoop fid occs st).2 n = st n := by
  induction occs generalizing st with
  | nil => rfl
  | cons occ rest ih =>
    have hst : addStep fid st occ n = st n :=
      addStep_at_of_file_ne fid st occ n (by rw [h]; exact Option.noConfusion)
    simp only [addLoop]
    rw [ih (addStep fid st occ) (by rw [hst]; exact h), hst]

theorem addLoop_at (fid : Nat) (occs : List ObjSymbol) (st : SymTab)
    (n : String) :
    (addLoop fid occs st).2 n = st n ∨
      (addLoop fid occs st).2 n = undefine (st n) := by
  induction occs generalizing st with
  | nil => exact Or.inl rfl
  | cons occ rest ih =>
    simp only [addLoop]
    rcases ih (addStep fid st occ) with h | h <;>
      rcases addStep_at fid st occ n with h' | h'
    · exact Or.inl (by rw [h, h'])
    · exact Or.inr (by rw [h, h'])
    · exact Or.inr (by rw [h, h'])
    · exact Or.inr (by rw [h, h']; rfl)

theorem addLoop_frame (fid : Nat) (occs : List ObjSymbol) (st : SymTab)
    (n : String)
    (h : ∀ r ∈ (addLoop fid occs st).1,
      r.occ.name = n → r.res.prevailing = false) :
    (addLoop fid occs st).2 n = st n := by
  induction occs generalizing st with
  | nil => rfl
  | cons occ rest ih =>
    simp only [addLoop] at h ⊢
    have h0 := h _ (List.mem_cons_self _ _)
    have htail : ∀ r ∈ (addLoop fid rest (addStep fid st occ)).1,
        r.occ.name = n → r.res.prevailing = false :=
      fun r hr => h r (List.mem_cons_of_mem _ hr)
    have hst : addStep fid st occ n = st n := by
      by_cases hn : occ.name = n
      · have hp : prevailingFor fid st occ = false := h0 hn
        simp [addStep, hp]
      · exact addStep_frame fid st occ n (Ne.symm hn)
    rw [ih _ htail, hst]

theorem addLoop_prevailed (fid : Nat) (occs : List ObjSymbol) (st : SymTab)
    (n : String)
    (h : ∃ r ∈ (addLoop fid occs st).1,
      r.occ.name = n ∧ r.res.prevailing = true) :
    (addLoop fid occs st).2 n = undefine (st n) := by
  induction occs generalizing st with
  | nil =>
    obtain ⟨r, hr, -⟩ := h
    simp [addLoop] at hr
  | cons occ rest ih =>
    obtain ⟨r, hr, hname, hprev⟩ := h
    simp only [addLoop, List.mem_cons] at hr ⊢
    rcases hr with rfl | hr
    · have hp : prevailingFor fid st occ = true := hprev
      have hn : occ.name = n := hname
      have hstep : addStep fid st occ n = undefine (st n) := by
        subst hn
        simp [addStep, hp, updateTab_same]
      rw [addLoop_file_none fid rest _ n (by rw [hstep]; rfl), hstep]
    · rcases addStep_at fid st occ n with h' | h'
      · rw [ih (addStep fid st occ) ⟨r, hr, hname, hprev⟩, h']
      · rw [addLoop_file_none fid rest _ n (by rw [h']; rfl), h']

theorem runAdds_file_none (fs : List BitcodeFile) (st : SymTab) (n : String)
    (h : (st n).file = none) : (runAdds fs st).2 n = st n := by
  induction fs generalizing st with
  | nil => rfl
  | cons f fs ih =>
    have hst : (add f st).2 n = st n := addLoop_file_none f.id f.syms st n h
    simp only [runAdds]
    rw [ih (add f st).2 (by rw [hst]; exact h), hst]

theorem runAdds_frame (fs : List BitcodeFile) (st : SymTab) (n : String)
    (h : ∀ r ∈ (runAdds fs st).1,
      r.occ.name = n → r.res.prevailing = false) :
    (runAdds fs st).2 n = st n := by
  induction fs generalizing st with
  | nil => rfl
  | cons f fs ih =>
    simp only [runAdds, List.mem_append] at h ⊢
    have hst : (add f st).2 n = st n :=
      addLoop_frame f.id f.syms st n (fun r hr => h r (Or.inl hr))
    have htail := ih (add f st).2 (fun r hr => h r (Or.inr hr))
    rw [htail, hst]

theorem runAdds_prevailed (fs : List BitcodeFile) (st : SymTab) (n : String)
    (h : ∃ r ∈ (runAdds fs st).1,
      r.occ.name = n ∧ r.res.prevailing = true) :
    (runAdds fs st).2 n = undefine (st n) := by
  induction fs generalizing st with
  | nil =>
    obtain ⟨r, hr, -⟩ := h
    simp [runAdds] at hr
  | cons f fs ih =>
    obtain ⟨r, hr, hname, hprev⟩ := h
    simp only [runAdds, List.mem_append] at hr ⊢
    rcases hr with hr | hr
    · have hstep : (add f st).2 n = undefine (st n) :=
        addLoop_prevailed f.id f.syms st n ⟨r, hr, hname, hprev⟩
      rw [runAdds_file_none fs _ n (by rw [hstep]; rfl), hstep]
    · rcases addLoop_at f.id f.syms st n with h' | h'
      · rw [ih (add f st).2 ⟨r, hr, hname, hprev⟩, add, h']
      · rw [runAdds_file_none fs _ n (by rw [add, h']; rfl), add, h']

theorem addLoop_countP_file_ne (fid : Nat) (occs : List ObjSymbol)
    (st : SymTab) (n : String) (h : (st n).file ≠ some fid) :
    ((addLoop fid occs st).1.countP (prevAt n)) = 0 ∧
      (addLoop fid occs st).2 n = st n := by
  induction occs generalizing st with
  | nil => exact ⟨rfl, rfl⟩
  | cons occ rest ih =>
    have hst : addStep fid st occ n = st n := addStep_at_of_file_ne fid st occ n h
    obtain ⟨ihc, ihs⟩ := ih (addStep fid st occ) (by rw [hst]; exact h)
    have hhead : prevAt n ⟨fid, occ,
        ⟨prevailingFor fid st occ, (st occ.name).isUsedInRegularObj⟩⟩ = false := by
      by_cases hn : occ.name = n
      · have hp : prevailingFor fid st occ = false :=
          prevailingFor_file_ne fid st occ (by rw [hn]; exact h)
        simp [prevAt, hp]
      · simp [prevAt, hn]
    refine ⟨?_, ?_⟩
    · simp only [addLoop, List.countP_cons]
      rw [ihc, hhead]
      simp
    · simp only [addLoop]
      rw [ihs, hst]

theorem addLoop_countP_prevail (fid : Nat) (occs : List ObjSymbol)
    (st : SymTab) (n : String) (hf : (st n).file = some fid)
    (hd : ∃ occ ∈ occs, occ.name = n ∧ occ.isUndefined = false) :
    ((addLoop fid occs st).1.countP (prevAt n)) = 1 ∧
      (addLoop fid occs st).2 n = undefine (st n) := by
  induction occs generalizing st with
  | nil =>
    obtain ⟨o, ho, -⟩ := hd
    simp at ho
  | cons occ rest ih =>
    by_cases hn : occ.name = n
    · by_cases hu : occ.isUndefined = false
      · have hp : prevailingFor fid st occ = true := by
          simp [prevailingFor, hu, hn, hf]
        have hstep : addStep fid st occ n = undefine (st n) := by
          subst hn
          simp [addStep, hp, updateTab_same]
        obtain ⟨rc, rs⟩ := addLoop_countP_file_ne fid rest (addStep fid st occ) n
          (by rw [hstep]; simp [undefine])
        have hhead : prevAt n ⟨fid, occ,
            ⟨prevailingFor fid st occ, (st occ.name).isUsedInRegularObj⟩⟩ = true := by
          simp [prevAt, hn, hp]
        refine ⟨?_, ?_⟩
        · simp only [addLoop, List.countP_cons]
          rw [rc, hhead]
          simp
        · simp only [addLoop]
          rw [rs, hstep]
      · have hu' : occ.isUndefined = true := by
          cases hocc : occ.isUndefined
          · exact absurd hocc hu
          · rfl
        have hp : prevailingFor fid st occ = false := by
          simp [prevailingFor, hu']
        have hstep : addStep fid st occ = st := by
          simp [addStep, hp]
        obtain ⟨o, ho, hon, hou⟩ := hd
        have ho' : o ∈ rest := by
          rcases List.mem_cons.mp ho with rfl | h'
          · exact absurd hou hu
          · exact h'
        obtain ⟨rc, rs⟩ := ih st hf ⟨o, ho', hon, hou⟩
        have hhead : prevAt n ⟨fid, occ,
            ⟨prevailingFor fid st occ, (st occ.name).isUsedInRegularObj⟩⟩ = false := by
          simp [prevAt, hp]
        refine ⟨?_, ?_⟩
        · simp only [addLoop, List.countP_cons, hstep]
          rw [rc, hhead]
          simp
        · simp only [addLoop, hstep]
          exact rs
    · have hstep : addStep fid st occ n = st n :=
        addStep_frame fid st occ n (Ne.symm hn)
      obtain ⟨o, ho, hon, hou⟩ := hd
      have ho' : o ∈ rest := by
        rcases List.mem_cons.mp ho with rfl | h'
        · exact absurd hon hn
        · exact h'
      obtain ⟨rc, rs⟩ := ih (addStep fid st occ) (by rw [hstep]; exact hf)
        ⟨o, ho', hon, hou⟩
      have hhead : prevAt n ⟨fid, occ,
          ⟨prevailingFor fid st occ, (st occ.name).isUsedInRegularObj⟩⟩ = false := by
        simp [prevAt, hn]
      refine ⟨?_, ?_⟩
      · simp only [addLoop, List.countP_cons]
        rw [rc, hhead]
        simp
      · simp only [addLoop]
        rw [rs, hstep]

theorem runAdds_countP_file_none (fs : List BitcodeFile) (st : SymTab)
    (n : String) (h : (st n).file = none) :
    ((runAdds fs st).1.countP (prevAt n)) = 0 ∧ (runAdds fs st).2 n = st n := by
  induction fs generalizing st with
  | nil => exact ⟨rfl, rfl⟩
  | cons f fs ih =>
    obtain ⟨fc, fsn⟩ := addLoop_countP_file_ne f.id f.syms st n
      (by rw [h]; exact Option.noConfusion)
    have fc' : ((add f st).1.countP (prevAt n)) = 0 := fc
    have fsn' : (add f st).2 n = st n := fsn
    obtain ⟨rc, rs⟩ := ih (add f st).2 (by rw [fsn']; exact h)
    refine ⟨?_, ?_⟩
    · simp only [runAdds, List.countP_append]
      rw [fc', rc]
    · simp only [runAdds]
      rw [rs, fsn']

theorem runAdds_countP_split (f₀ : BitcodeFile) (n : String) :
    ∀ (pre post : List BitcodeFile) (st : SymTab),
      (∀ g ∈ pre, g.id ≠ f₀.id) → (st n).file = some f₀.id →
      (∃ occ ∈ f₀.syms, occ.name = n ∧ occ.isUndefined = false) →
      ((runAdds (pre ++ f₀ :: post) st).1.countP (prevAt n)) = 1 := by
  intro pre
  induction pre with
  | nil =>
    intro post st hpre hf hd
    obtain ⟨fc, fs2⟩ := addLoop_countP_prevail f₀.id f₀.syms st n hf hd
    have fc' : ((add f₀ st).1.countP (prevAt n)) = 1 := fc
    have fs2' : (add f₀ st).2 n = undefine (st n) := fs2
    obtain ⟨rc, -⟩ := runAdds_countP_file_none post (add f₀ st).2 n
      (by rw [fs2']; rfl)
    simp only [List.nil_append, runAdds, List.countP_append]
    rw [fc', rc]
  | cons g pre ih =>
    intro post st hpre hf hd
    have hg : g.id ≠ f₀.id := hpre g (List.mem_cons_self _ _)
    have hne : (st n).file ≠ some g.id := by
      rw [hf]
      intro hh
      exact hg (Option.some.inj hh).symm
    obtain ⟨fc, fsn⟩ := addLoop_countP_file_ne g.id g.syms st n hne
    have fc' : ((add g st).1.countP (prevAt n)) = 0 := fc
    have fsn' : (add g st).2 n = st n := fsn
    have hrest := ih post (add g st).2
      (fun g' hg' => hpre g' (List.mem_cons_of_mem _ hg'))
      (by rw [fsn']; exact hf) hd
    simp only [List.cons_append, runAdds, List.countP_append]
    rw [fc', Nat.zero_add]
    exact hrest

theorem addLoop_mem (fid : Nat) (occs : List ObjSymbol) (st : SymTab) :
    ∀ r ∈ (addLoop fid occs st).1, r.fileId = fid ∧ r.occ ∈ occs := by
  induction occs generalizing st with
  | nil =>
    intro r hr
    simp [addLoop] at hr
  | cons occ rest ih =>
    intro r hr
    simp only [addLoop, List.mem_cons] at hr
    rcases hr with rfl | hr
    · exact ⟨rfl, List.mem_cons_self _ _⟩
    · obtain ⟨h1, h2⟩ := ih _ r hr
      exact ⟨h1, List.mem_cons_of_mem _ h2⟩

theorem runAdds_mem (fs : List BitcodeFile) (st : SymTab) :
    ∀ r ∈ (runAdds fs st).1, ∃ f ∈ fs, r.fileId = f.id ∧ r.occ ∈ f.syms := by
  induction fs generalizing st with
  | nil =>
    intro r hr
    simp [runAdds] at hr
  | cons f fs ih =>
    intro r hr
    simp only [runAdds, List.mem_append] at hr
    rcases hr with hr | hr
    · obtain ⟨h1, h2⟩ := addLoop_mem f.id f.syms st r hr
      exact ⟨f, List.mem_cons_self _ _, h1, h2⟩
    · obtain ⟨g, hg, h1, h2⟩ := ih _ r hr
      exact ⟨g, List.mem_cons_of_mem _ hg, h1, h2⟩

theorem aggregateLoop_fst (cfg : COFFConfig) :
    ∀ (i : Nat) (bufs : List Buffer),
      (aggregateLoop cfg i bufs).1 = bufs.filter (fun b => !b.isEmpty) := by
  intro i bufs
  induction bufs generalizing i with
  | nil => rfl
  | cons b rest ih =>
    simp only [aggregateLoop, List.filter_cons]
    by_cases hb : b.isEmpty
    · simp [hb, ih]
    · simp [hb, ih]

theorem cacheOutputs_eq (files : List (Option Buffer)) :
    cacheOutputs files = files.filterMap id := by
  induction files with
  | nil => rfl
  | cons f rest ih =>
    cases f <;> simp [cacheOutputs, ih]

theorem aggregateLoop_snd (cfg : COFFConfig) (h : cfg.saveTemps = true) :
    ∀ (i : Nat) (bufs : List Buffer),
      (aggregateLoop cfg i bufs).2 =
        ((List.enumFrom i bufs).filter (fun p => !p.2.isEmpty)).map
          (fun p => (tempPath cfg.outputFile p.1, p.2)) := by
  intro i bufs
  induction bufs generalizing i with
  | nil => rfl
  | cons b rest ih =>
    simp only [aggregateLoop, List.enumFrom, List.filter_cons]
    by_cases hb : b.isEmpty
    · simp [hb, ih]
    · simp [hb, ih, h]

/-- C1: for a symbol name with at least one defined occurrence among the
registered modules, provided module identities are distinct and the
linker-wide symbol table associates the name with a registered module that
has a defined occurrence of it (the order-of-encounter verdict `add`
mirrors), the resolutions assigned by the sequence of `add` calls mark
exactly one occurrence of the name prevailing, and any prevailing
occurrence of the name is a defined, not undefined, occurrence. -/
theorem add_exactly_one_prevailing (fs : List BitcodeFile) (st : SymTab)
    (n : String) (f₀ : BitcodeFile) (hmem : f₀ ∈ fs)
    (hids : (fs.map BitcodeFile.id).Nodup)
    (hfile : (st n).file = some f₀.id)
    (hdef : ∃ occ ∈ f₀.syms, occ.name = n ∧ occ.isUndefined = false) :
    ((runAdds fs st).1.countP (prevAt n)) = 1 ∧
      ∀ r ∈ (runAdds fs st).1, prevAt n r = true →
        r.occ.isUndefined = false := by
  obtain ⟨pre, post, rfl⟩ := List.append_of_mem hmem
  have hpre : ∀ g ∈ pre, g.id ≠ f₀.id := by
    intro g hg he
    rw [List.map_append] at hids
    have hdisj := (List.nodup_append.mp hids).2.2
    have hin : f₀.id ∈ (f₀ :: post).map BitcodeFile.id := by simp
    exact hdisj (List.mem_map_of_mem _ hg) (he ▸ hin)
  refine ⟨runAdds_countP_split f₀ n pre post st hpre hfile hdef, ?_⟩
  intro r hr hp
  have hp' : r.res.prevailing = true := by
    simp only [prevAt, Bool.and_eq_true, decide_eq_true_eq] at hp
    exact hp.2
  exact runAdds_prevailing_defined _ st r hr hp'

/-- C1 witness: two modules each defining `foo`, the table resolved to
module 1; exactly one prevailing occurrence of `foo`. -/
theorem add_exactly_one_prevailing_witness :
    (sampleTab "foo").file = some 1 ∧
      ((runAdds [⟨1, [⟨"foo", false⟩]⟩, ⟨2, [⟨"foo", false⟩]⟩]
          sampleTab).1.countP (prevAt "foo")) = 1 :=
  ⟨by decide,
    (add_exactly_one_prevailing [⟨1, [⟨"foo", false⟩]⟩, ⟨2, [⟨"foo", false⟩]⟩]
      sampleTab "foo" ⟨1, [⟨"foo", false⟩]⟩ (by decide) (by decide) (by decide)
      ⟨⟨"foo", false⟩, by decide, rfl, rfl⟩).1⟩

/-- C2: every occurrence marked prevailing during `add` has its
linker-wide symbol-table entry rewritten, by the end of the `add` call
(before the module is handed to `ltoObj->add`), to the `Undefined`
placeholder with the same name as the entry it replaces. -/
theorem add_prevailing_undefines_symtab (f : BitcodeFile) (st : SymTab) :
    ∀ r ∈ (add f st).1, r.res.prevailing = true →
      (add f st).2 r.occ.name = undefine (st r.occ.name) ∧
        ((add f st).2 r.occ.name).kind = .undefinedKind ∧
        ((add f st).2 r.occ.name).name = (st r.occ.name).name := by
  intro r hr hp
  have h : (add f st).2 r.occ.name = undefine (st r.occ.name) :=
    addLoop_prevailed f.id f.syms st r.occ.name ⟨r, hr, rfl, hp⟩
  exact ⟨h, by rw [h]; rfl, by rw [h]; rfl⟩

/-- C2 witness: one module defining `foo` with the table resolved to it;
after `add`, the table entry for `foo` is the undefined placeholder. -/
theorem add_prevailing_undefines_symtab_witness :
    (add ⟨1, [⟨"foo", false⟩]⟩ sampleTab).2 "foo" = undefine (sampleTab "foo") ∧
      ((add ⟨1, [⟨"foo", false⟩]⟩ sampleTab).2 "foo").kind = .undefinedKind ∧
      ((add ⟨1, [⟨"foo", false⟩]⟩ sampleTab).2 "foo").name =
        (sampleTab "foo").name :=
  add_prevailing_undefines_symtab ⟨1, [⟨"foo", false⟩]⟩ sampleTab
    ⟨1, ⟨"foo", false⟩, ⟨true, true⟩⟩ (by decide) rfl

/-- C3: when every occurrence of a name across all registered modules is
undefined, no occurrence of that name is marked prevailing — an undefined
occurrence never prevails, even as the sole occurrence of its name. -/
theorem no_defined_occurrence_no_prevailing (fs : List BitcodeFile)
    (st : SymTab) (n : String)
    (h : ∀ f ∈ fs, ∀ occ ∈ f.syms, occ.name = n → occ.isUndefined = true) :
    ∀ r ∈ (runAdds fs st).1, r.occ.name = n → r.res.prevailing = false := by
  intro r hr hn
  cases hp : r.res.prevailing
  · rfl
  · obtain ⟨f, hf, -, hocc⟩ := runAdds_mem fs st r hr
    have hu := runAdds_prevailing_defined fs st r hr hp
    have ht := h f hf r.occ hocc hn
    rw [ht] at hu
    exact Bool.noConfusion hu

/-- C3 witness: a single module with a lone undefined occurrence of `bar`,
with the table resolved to that very module; the occurrence is still not
prevailing. -/
theorem no_defined_occurrence_no_prevailing_witness :
    (⟨1, ⟨"bar", true⟩, ⟨false, true⟩⟩ : ResolvedSym).res.prevailing = false :=
  no_defined_occurrence_no_prevailing [⟨1, [⟨"bar", true⟩]⟩] sampleTab "bar"
    (by decide) ⟨1, ⟨"bar", true⟩, ⟨false, true⟩⟩ (by decide) rfl

/-- C4: the sequence returned by `compile` is the non-empty freshly
compiled unit buffers in ascending unit-index order, each empty buffer
skipped, followed by the buffers the cache materialized in the order of
their task slots. -/
theorem compile_output_order (cfg : COFFConfig) (bufs : List Buffer)
    (files : List (Option Buffer)) :
    (compile cfg bufs files).ret =
      bufs.filter (fun b => !b.isEmpty) ++ files.filterMap id := by
  show (aggregateLoop cfg 0 bufs).1 ++ cacheOutputs files = _
  rw [aggregateLoop_fst cfg 0 bufs, cacheOutputs_eq]

/-- C4 witness: three units, two non-empty and one empty, plus one cache
slot; the result is exactly the two fresh blobs in ascending unit order
followed by the cache blob. -/
theorem compile_output_order_witness :
    (compile sampleCfg [[1], [], [2]] [none, some [9], none]).ret =
      [[1], [2], [9]] :=
  (compile_output_order sampleCfg [[1], [], [2]]
    [none, some [9], none]).trans (by decide)

/-- C5: within one `compile` invocation the cache eviction pass runs
exactly when a cache store location is configured, any eviction step in
the trace is preceded by the backend run (hence by all cache writes of
the invocation, which happen inside the run), and an empty cache store
location keeps cache setup out of the trace entirely. -/
theorem compile_prune_after_backend (cfg : COFFConfig) (bufs : List Buffer)
    (files : List (Option Buffer)) :
    (Event.pruneCache ∈ (compile cfg bufs files).events ↔ cfg.ltoCache ≠ "") ∧
      (∀ l₁ l₂, (compile cfg bufs files).events = l₁ ++ Event.pruneCache :: l₂ →
        Event.backendRun ∈ l₁) ∧
      (cfg.ltoCache = "" →
        Event.setupCache ∉ (compile cfg bufs files).events ∧
          Event.pruneCache ∉ (compile cfg bufs files).events) := by
  by_cases hc : cfg.ltoCache = ""
  · refine ⟨by simp [compile, hc], ?_, fun _ => by simp [compile, hc]⟩
    intro l₁ l₂ hl
    simp only [compile, hc, if_pos, List.nil_append, List.append_nil] at hl
    rcases l₁ with _ | ⟨a, l₁⟩ <;> simp_all
  · refine ⟨by simp [compile, hc], ?_, fun h => absurd h hc⟩
    intro l₁ l₂ hl
    simp only [compile, hc, if_neg, List.cons_append, List.nil_append,
      List.singleton_append] at hl
    rcases l₁ with _ | ⟨a, _ | ⟨b, _ | ⟨c, l₁⟩⟩⟩ <;> simp_all

/-- C5 witness: with a cache configured, the only decomposition of the
trace around the eviction step has the backend run before it; with no
cache, cache setup is absent from the trace. -/
theorem compile_prune_after_backend_witness :
    Event.backendRun ∈ [Event.setupCache, Event.backendRun] ∧
      Event.setupCache ∉ (compile sampleCfg [[1]] []).events :=
  ⟨(compile_prune_after_backend sampleCfgSave [[1]] []).2.1
      [Event.setupCache, Event.backendRun] [] (by decide),
    ((compile_prune_after_backend sampleCfg [[1]] []).2.2 rfl).1⟩

/-- C6: with save-temps set, `compile` writes each non-empty unit buffer
to the diagnostic path derived from the output file name and the unit
index — the bare output name for unit 0, the name suffixed with the index
for every other unit — in ascending unit order. -/
theorem compile_saveTemps_paths (cfg : COFFConfig) (bufs : List Buffer)
    (files : List (Option Buffer)) (h : cfg.saveTemps = true) :
    (compile cfg bufs files).saved =
      (bufs.enum.filter (fun p => !p.2.isEmpty)).map
        (fun p =>
          (if p.1 = 0 then cfg.outputFile ++ ".lto.obj"
            else cfg.outputFile ++ toString p.1 ++ ".lto.obj", p.2)) := by
  show (aggregateLoop cfg 0 bufs).2 = _
  rw [aggregateLoop_snd cfg h 0 bufs]
  rfl

/-- C6 witness: with save-temps on and output file `out`, units 0 and 2
non-empty, the saved diagnostic files are `out.lto.obj` and
`out2.lto.obj`, in that order. -/
theorem compile_saveTemps_paths_witness :
    (compile sampleCfgSave [[1], [], [2]] []).saved =
      [("out.lto.obj", [1]), ("out2.lto.obj", [2])] :=
  (compile_saveTemps_paths sampleCfgSave [[1], [], [2]] [] rfl).trans
    (by decide)

/-- C7: the relocation model `createLTO` selects is static for the 32-bit
x86 machine and position-independent for every other machine. -/
theorem createLTO_relocModel_by_machine (cfg : COFFConfig) :
    (cfg.machine = .i386 → (createLTO cfg).relocModel = .staticModel) ∧
      (cfg.machine ≠ .i386 → (createLTO cfg).relocModel = .picModel) := by
  constructor <;> intro h <;> simp [createLTO, h]

/-- C7 witness: static on i386, PIC on amd64. -/
theorem createLTO_relocModel_by_machine_witness :
    (createLTO sampleCfgI386).relocModel = .staticModel ∧
      (createLTO sampleCfg).relocModel = .picModel :=
  ⟨(createLTO_relocModel_by_machine sampleCfgI386).1 rfl,
    (createLTO_relocModel_by_machine sampleCfg).2 (by decide)⟩

/-- C8: for every occurrence processed by `add`, the assigned
`VisibleToRegularObj` is exactly the precomputed `isUsedInRegularObj`
flag of the occurrence's symbol-table entry as supplied by the caller,
with no transformation. -/
theorem add_visibleToRegularObj_forwarded (f : BitcodeFile) (st : SymTab) :
    ∀ r ∈ (add f st).1,
      r.res.visibleToRegularObj = (st r.occ.name).isUsedInRegularObj :=
  addLoop_visible f.id f.syms st

/-- C8 witness: the resolution recorded for the sole occurrence of `foo`
carries the table's precomputed flag verbatim. -/
theorem add_visibleToRegularObj_forwarded_witness :
    (⟨1, ⟨"foo", false⟩, ⟨true, true⟩⟩ : ResolvedSym).res.visibleToRegularObj =
      (sampleTab "foo").isUsedInRegularObj :=
  add_visibleToRegularObj_forwarded ⟨1, [⟨"foo", false⟩]⟩ sampleTab
    ⟨1, ⟨"foo", false⟩, ⟨true, true⟩⟩ (by decide)

/-- C9: `add` leaves the symbol-table entry of a name unchanged whenever
no occurrence of that name in the module was marked prevailing — the
table is mutated only for prevailing resolutions. -/
theorem add_frame_non_prevailing (f : BitcodeFile) (st : SymTab) (n : String)
    (h : ∀ r ∈ (add f st).1, r.occ.name = n → r.res.prevailing = false) :
    (add f st).2 n = st n :=
  addLoop_frame f.id f.syms st n h

/-- C9 witness: a module whose `foo` occurrence does not prevail (the
table points at a different module) leaves the `foo` entry untouched. -/
theorem add_frame_non_prevailing_witness :
    (add ⟨2, [⟨"foo", false⟩]⟩ sampleTab).2 "foo" = sampleTab "foo" :=
  add_frame_non_prevailing ⟨2, [⟨"foo", false⟩]⟩ sampleTab "foo" (by decide)

/-- C10: the LTO configuration built by `createLTO` has per-function and
per-datum sections enabled for every linker configuration,
unconditionally. -/
theorem createLTO_sections_always_on (cfg : COFFConfig) :
    (createLTO cfg).functionSections = true ∧
      (createLTO cfg).dataSections = true :=
  ⟨rfl, rfl⟩

/-- C10 witness: section flags are on for the sample configuration. -/
theorem createLTO_sections_always_on_witness :
    (createLTO sampleCfg).functionSections = true ∧
      (createLTO sampleCfg).dataSections = true :=
  createLTO_sections_always_on sampleCfg

end LtoCoff
